import Mathlib

/-!
# Automatic closing of expired auctions

A shallow embedding of `internal/infra/database/auction/create_auction.go`
(package `auction`): the interval provider `getAuctionInterval`, the record
written by `CreateAuction`, one tick of `closeExpiredAuctions`, and the
loop of `auctionCloser` with its cancellation by `Close`.

Conventions of the embedding

* The value of an environment variable is the sequence of its bytes, a
  `List Nat`; the identifier and the texts of an auction are Lean strings.
* A `time.Time` is an integer count of nanoseconds since the Unix epoch;
  a `time.Duration` is an integer count of nanoseconds kept in the int64
  range, with two's-complement wrap-around where Go wraps.
* The Mongo collection is the list of its documents; a backend failure of a
  store call is an explicit Boolean input of that call.
-/

namespace Auction

/-! ## Durations (Go package `time`) -/

/-- The least Go `time.Duration`. -/
def minDuration : Int := -9223372036854775808

/-- The greatest Go `time.Duration`. -/
def maxDuration : Int := 9223372036854775807

/-- Two's-complement reduction of an integer to the int64 range. -/
def wrapInt64 (x : Int) : Int := (x + 9223372036854775808) % 18446744073709551616 - 9223372036854775808

/-- Unary minus on a `Duration`: int64 negation, which wraps at the minimum. -/
def negDuration (d : Int) : Int := wrapInt64 (-d)

def Nanosecond : Int := 1

def Microsecond : Int := 1000 * Nanosecond

def Millisecond : Int := 1000 * Microsecond

def Second : Int := 1000 * Millisecond

def Minute : Int := 60 * Second

def Hour : Int := 60 * Minute

/-- Go `Time.Unix`: whole seconds since the epoch, rounded towards minus infinity. -/
def unix (t : Int) : Int := t / 1000000000

/-- Go `Time.Add` on the wall clock reading. -/
def timeAdd (t : Int) (d : Int) : Int := t + d

/-! ## `time.ParseDuration` (Go standard library, `src/time/format.go`) -/

inductive DurationError where
  | invalidDuration
  | missingUnit
  | unknownUnit
  deriving DecidableEq, Repr

/-- The byte is an ASCII digit. -/
def isDigit (c : Nat) : Bool := 48 ≤ c && c ≤ 57

/-- The byte is `.` or an ASCII digit: what ends a unit name. -/
def isDigitOrDot (c : Nat) : Bool := c == 46 || isDigit c

/-- Go `leadingInt`: the leading decimal digits of `s` as a uint64, with the
rest of `s`; `none` when the value would pass `1<<63`. The second argument
is the value read so far. -/
def leadingInt : List Nat → Nat → Option (Nat × List Nat)
  | [], x => some (x, [])
  | c :: s, x =>
    if !isDigit c then some (x, c :: s)
    else if x > 9223372036854775808 / 10 then none
    else
      let y := (x * 10 + c - 48) % 18446744073709551616
      if y > 9223372036854775808 then none else leadingInt s y

/-- Go `leadingFraction`: the digits after the decimal point as a uint64
together with `scale` (ten to the number of digits kept); digits that would
overflow are skipped. The arguments after the string are `x`, `scale` and the
`overflow` flag of the loop. -/
def leadingFraction : List Nat → Nat → Nat → Bool → Nat × Nat × List Nat
  | [], x, scale, _ => (x, scale, [])
  | c :: s, x, scale, overflow =>
    if !isDigit c then (x, scale, c :: s)
    else if overflow then leadingFraction s x scale true
    else if x > 9223372036854775807 / 10 then leadingFraction s x scale true
    else
      let y := (x * 10 + c - 48) % 18446744073709551616
      if y > 9223372036854775808 then leadingFraction s x scale true
      else leadingFraction s y (scale * 10) false

/-- Go `unitMap`: nanoseconds per unit, keyed by the bytes of the unit name
(`ns`, `us`, the two spellings of micro-seconds, `ms`, `s`, `m`, `h`). -/
def unitMap (u : List Nat) : Option Nat :=
  if u = [110, 115] then some 1
  else if u = [117, 115] then some 1000
  else if u = [194, 181, 115] then some 1000
  else if u = [206, 188, 115] then some 1000
  else if u = [109, 115] then some 1000000
  else if u = [115] then some 1000000000
  else if u = [109] then some 60000000000
  else if u = [104] then some 3600000000000
  else none

/-- The IEEE-754 binary64 value nearest to a positive rational (ties to
even), for values in the normal range: what a float64 conversion, division
or multiplication rounds its exact result to. -/
def roundFloat64 (q : ℚ) : ℚ :=
  if q ≤ 0 then 0
  else
    let e0 : Int := (Nat.log2 q.num.toNat : Int) - (Nat.log2 q.den : Int)
    let e : Int := if (2 : ℚ) ^ e0 ≤ q then e0 else e0 - 1
    let ulp : ℚ := (2 : ℚ) ^ (e - 52)
    let m : ℚ := q / ulp
    let lo : Int := ⌊m⌋
    let r : ℚ := m - lo
    let n : Int :=
      if r < 1 / 2 then lo
      else if 1 / 2 < r then lo + 1
      else if lo % 2 = 0 then lo else lo + 1
    n * ulp

/-- The expression `uint64(float64(f) * (float64(unit) / scale))` of
`ParseDuration`: two roundings and a truncation towards zero. -/
def fracNanos (f unit scale : Nat) : Nat :=
  (⌊roundFloat64 (roundFloat64 f * roundFloat64 ((unit : ℚ) / scale))⌋).toNat

/-- The body of the `for s != ""` loop of `ParseDuration`, `d` being the
uint64 accumulated so far. The first argument bounds the number of
iterations; `none` is returned only when that bound is used up. -/
def parseLoop :
    Nat → List Nat → Nat → Option (Except DurationError Nat)
  | _, [], d => some (.ok d)
  | 0, _ :: _, _ => none
  | fuel + 1, c :: t, d =>
    if !isDigitOrDot c then some (.error .invalidDuration)
    else
      match leadingInt (c :: t) 0 with
      | none => some (.error .invalidDuration)
      | some (v, s1) =>
        let pre := (c :: t).length != s1.length
        let frac : Nat × Nat × List Nat × Bool :=
          match s1 with
          | 46 :: s2 =>
            let r := leadingFraction s2 0 1 false
            (r.1, r.2.1, r.2.2, s2.length != r.2.2.length)
          | _ => (0, 1, s1, false)
        let f := frac.1
        let scale := frac.2.1
        let s3 := frac.2.2.1
        let post := frac.2.2.2
        if !pre && !post then some (.error .invalidDuration)
        else
          let u := s3.takeWhile (fun b => !isDigitOrDot b)
          let s4 := s3.dropWhile (fun b => !isDigitOrDot b)
          if u.length = 0 then some (.error .missingUnit)
          else
            match unitMap u with
            | none => some (.error .unknownUnit)
            | some unit =>
              if v > 9223372036854775808 / unit then some (.error .invalidDuration)
              else
                let v1 := (v * unit) % 18446744073709551616
                let v2 := if f > 0 then (v1 + fracNanos f unit scale) % 18446744073709551616 else v1
                if f > 0 && v2 > 9223372036854775808 then some (.error .invalidDuration)
                else
                  let d1 := (d + v2) % 18446744073709551616
                  if d1 > 9223372036854775808 then some (.error .invalidDuration)
                  else parseLoop fuel s4 d1

/-- Go `time.ParseDuration`: an optional sign, then either the single byte
`0` or one or more `number unit` groups. The magnitude is kept as a uint64
and converted to int64 at the end. -/
def ParseDuration (orig : List Nat) : Except DurationError Int :=
  let signed : Bool × List Nat :=
    match orig with
    | 45 :: t => (true, t)
    | 43 :: t => (false, t)
    | _ => (false, orig)
  let neg := signed.1
  let s := signed.2
  if s = [48] then .ok 0
  else if s = [] then .error .invalidDuration
  else
    match parseLoop s.length s 0 with
    | none => .error .invalidDuration
    | some (.error e) => .error e
    | some (.ok d) =>
      if neg then .ok (negDuration (wrapInt64 d))
      else if d > 9223372036854775807 then .error .invalidDuration
      else .ok (wrapInt64 d)

/-- Go `os.Getenv`: the value of the variable, the empty string when it is
not set. -/
def Getenv (value : Option (List Nat)) : List Nat := value.getD []

/-- `getAuctionInterval`: the duration parsed from `AUCTION_INTERVAL`, five
minutes when it does not parse. -/
def getAuctionInterval (AUCTION_INTERVAL : Option (List Nat)) : Int :=
  let auctionInterval := Getenv AUCTION_INTERVAL
  match ParseDuration auctionInterval with
  | .error _ => Minute * 5
  | .ok duration => duration

/-! ## Entities and records -/

/-- Modelled from the spec: the declaration of `auction_entity.ProductCondition`
is not among the sources; the spec lists the conditions New and Used. -/
inductive ProductCondition where
  | New
  | Used
  deriving DecidableEq, Repr

/-- Modelled from the spec: the declaration of `auction_entity.AuctionStatus`
is not among the sources; the spec lists the statuses Active and Completed. -/
inductive AuctionStatus where
  | Active
  | Completed
  deriving DecidableEq, Repr

/-- Modelled from the spec: the entity `auction_entity.Auction` is not among
the sources; these are the fields `CreateAuction` reads, `Timestamp` being a
`time.Time`. -/
structure AuctionEntity where
  Id : String
  ProductName : String
  Category : String
  Description : String
  Condition : ProductCondition
  Status : AuctionStatus
  Timestamp : Int
  deriving DecidableEq, Repr

/-- The document `AuctionEntityMongo`; `Timestamp` is an int64 of epoch seconds. -/
structure AuctionEntityMongo where
  Id : String
  ProductName : String
  Category : String
  Description : String
  Condition : ProductCondition
  Status : AuctionStatus
  Timestamp : Int
  deriving DecidableEq, Repr

/-- Modelled from the spec: `internal_error.InternalError` is not among the
sources; the spec names a storage failure and a not-found failure. -/
inductive InternalError where
  | InternalServerError (message : String)
  | NotFoundError (message : String)
  deriving DecidableEq, Repr

/-- The Mongo collection `auctions`: its documents, oldest first. -/
abbrev Collection := List AuctionEntityMongo

/-- The `_id` keys of a collection. -/
def ids (coll : Collection) : List String := coll.map (fun a => a.Id)

/-- The `_id` index of Mongo: no two documents share an `_id`. -/
def UniqueIds (coll : Collection) : Prop := (ids coll).Nodup

instance (coll : Collection) : Decidable (UniqueIds coll) := by
  unfold UniqueIds
  infer_instance

/-! ## Store calls -/

/-- Mongo `InsertOne` on the collection: the document is appended, unless the
backend fails or a document with the same `_id` is present (duplicate key);
`none` is the driver's error. -/
def InsertOne (coll : Collection) (doc : AuctionEntityMongo) (backendFails : Bool) :
    Option Collection :=
  if backendFails then none
  else if doc.Id ∈ ids coll then none
  else some (coll ++ [doc])

/-- The status of the first document with the given `_id` is overwritten. -/
def setStatus (id : String) (status : AuctionStatus) : Collection → Collection
  | [] => []
  | a :: rest =>
    if a.Id = id then { a with Status := status } :: rest
    else a :: setStatus id status rest

/-- Modelled from the spec: `FindAuctionById` is not among the sources. Spec
§4.2 `findById`: fails with a not-found error if absent, with a storage error
on backend failure. -/
def FindAuctionById (coll : Collection) (id : String) (backendFails : Bool) :
    Except InternalError AuctionEntityMongo :=
  if backendFails then .error (.InternalServerError "Error trying to find auction by id")
  else
    match coll.find? (fun a => a.Id = id) with
    | none => .error (.NotFoundError "Auction not found")
    | some a => .ok a

/-- Modelled from the spec: `FindActiveAuctionsOlderThan` is not among the
sources. Spec §4.2 `findActiveOlderThan`: all records where status = Active
and creationTimestamp ≤ cutoff (here in collection order); the empty sequence
when none match; a storage error on backend failure. -/
def FindActiveAuctionsOlderThan (coll : Collection) (cutoff : Int) (backendFails : Bool) :
    Except InternalError (List AuctionEntityMongo) :=
  if backendFails then .error (.InternalServerError "Error finding expired auctions")
  else .ok (coll.filter (fun a => a.Status = .Active ∧ a.Timestamp ≤ cutoff))

/-- Modelled from the spec: `UpdateAuctionStatus` is not among the sources.
Spec §4.2 `updateStatus`: sets the status unconditionally; fails with a
not-found error or a storage error. -/
def UpdateAuctionStatus (coll : Collection) (id : String) (status : AuctionStatus)
    (backendFails : Bool) : Except InternalError Collection :=
  if backendFails then .error (.InternalServerError "Error updating auction status")
  else if id ∈ ids coll then .ok (setStatus id status coll)
  else .error (.NotFoundError "Auction not found")

/-! ## `create_auction.go` -/

/-- The document `CreateAuction` builds from the entity: the fields copied, the
timestamp reduced to whole epoch seconds by `Timestamp.Unix()`. -/
def toMongo (auctionEntity : AuctionEntity) : AuctionEntityMongo :=
  { Id := auctionEntity.Id
    ProductName := auctionEntity.ProductName
    Category := auctionEntity.Category
    Description := auctionEntity.Description
    Condition := auctionEntity.Condition
    Status := auctionEntity.Status
    Timestamp := unix auctionEntity.Timestamp }

/-- `CreateAuction`: the collection afterwards and the returned error (`none`
for Go's `nil`). -/
def CreateAuction (coll : Collection) (auctionEntity : AuctionEntity) (backendFails : Bool) :
    Collection × Option InternalError :=
  let auctionEntityMongo := toMongo auctionEntity
  match InsertOne coll auctionEntityMongo backendFails with
  | none => (coll, some (.InternalServerError "Error trying to insert auction"))
  | some coll1 => (coll1, none)

/-- What a tick does that can be observed from outside: its store calls and
its log lines, in order. -/
inductive Event where
  | FindActiveAuctionsOlderThan (cutoffTimestamp : Int)
  | UpdateAuctionStatus (id : String) (status : AuctionStatus)
  | logError (message : String)
  | logInfo (message : String)
  deriving DecidableEq, Repr

/-- The loop `for _, auction := range expiredAuctions` of
`closeExpiredAuctions`. `updateFails k` tells whether the backend fails the
update call number `k` of the tick; the counter argument is the number of
the next call. -/
def closeEach (updateFails : Nat → Bool) :
    List AuctionEntityMongo → Nat → Collection → Collection × List Event
  | [], _, coll => (coll, [])
  | auction :: rest, k, coll =>
    match UpdateAuctionStatus coll auction.Id .Completed (updateFails k) with
    | .error _ =>
      let r := closeEach updateFails rest (k + 1) coll
      (r.1, .UpdateAuctionStatus auction.Id .Completed
              :: .logError "Error closing expired auction" :: r.2)
    | .ok coll1 =>
      let r := closeEach updateFails rest (k + 1) coll1
      (r.1, .UpdateAuctionStatus auction.Id .Completed
              :: .logInfo ("Auction automatically closed: " ++ auction.Id ++ " - "
                    ++ auction.ProductName) :: r.2)

/-- `closeExpiredAuctions` at wall-clock time `now` on a repository whose
interval is `auctionInterval`: the collection afterwards and the events of the
tick. `findFails` and `updateFails` are the backend failures of the tick. -/
def closeExpiredAuctions (auctionInterval : Int) (now : Int) (coll : Collection)
    (findFails : Bool) (updateFails : Nat → Bool) : Collection × List Event :=
  let cutoffTime := timeAdd now (negDuration auctionInterval)
  let cutoffTimestamp := unix cutoffTime
  match FindActiveAuctionsOlderThan coll cutoffTimestamp findFails with
  | .error _ =>
    (coll, [.FindActiveAuctionsOlderThan cutoffTimestamp,
            .logError "Error finding expired auctions"])
  | .ok expiredAuctions =>
    let r := closeEach updateFails expiredAuctions 0 coll
    (r.1, .FindActiveAuctionsOlderThan cutoffTimestamp :: r.2)

/-! ## The repository and its background loop -/

/-- Where the goroutine of `auctionCloser` stands. -/
inductive LoopState where
  | NotStarted
  | Running
  | Stopped
  deriving DecidableEq, Repr

/-- The struct `AuctionRepository` together with the state of what it owns:
`closeOnce` tells whether the `sync.Once` has fired, `ctxDone` whether
`cancel` was called, `closer` is the state of the goroutine, `started` counts
the goroutines started for this instance and `events` records what the ticks
did. -/
structure AuctionRepository where
  Collection : Collection
  auctionInterval : Int
  closeOnce : Bool
  ctxDone : Bool
  closer : LoopState
  started : Nat
  events : List Event

/-- Go `sync.Once.Do` applied to `go repo.auctionCloser()`: the goroutine is
started unless the once has fired before. -/
def closeOnceDo (repo : AuctionRepository) : AuctionRepository :=
  if repo.closeOnce then repo
  else { repo with closeOnce := true, closer := .Running, started := repo.started + 1 }

/-- `NewAuctionRepository`, given the collection of the database and the value
of the environment variable. -/
def NewAuctionRepository (database : Collection) (AUCTION_INTERVAL : Option (List Nat)) :
    AuctionRepository :=
  let repo : AuctionRepository :=
    { Collection := database
      auctionInterval := getAuctionInterval AUCTION_INTERVAL
      closeOnce := false
      ctxDone := false
      closer := .NotStarted
      started := 0
      events := [] }
  closeOnceDo repo

/-- The case the `select` of `auctionCloser` takes in one pass of its loop:
the context is done, or the ticker has fired, at time `now` and with the
backend failures the tick will meet. -/
inductive SelectCase where
  | ctxDone
  | tickerC (now : Int) (findFails : Bool) (updateFails : Nat → Bool)

/-- One pass of the `for` loop of `auctionCloser`. A pass needs the goroutine
to be running, and the case `<-ar.ctx.Done()` needs the context to be
cancelled; otherwise the pass does not happen and the repository is as
before. On `ctxDone` the goroutine returns; on `tickerC` it calls
`closeExpiredAuctions` and goes on. -/
def auctionCloser (ar : AuctionRepository) : SelectCase → AuctionRepository
  | .ctxDone =>
    if ar.closer = .Running ∧ ar.ctxDone = true then { ar with closer := .Stopped }
    else ar
  | .tickerC now findFails updateFails =>
    if ar.closer = .Running then
      let r := closeExpiredAuctions ar.auctionInterval now ar.Collection findFails updateFails
      { ar with Collection := r.1, events := ar.events ++ r.2 }
    else ar

/-- `Close`: the call `ar.cancel()`. -/
def Close (ar : AuctionRepository) : AuctionRepository := { ar with ctxDone := true }

/-- What can happen to a repository: a call of `CreateAuction`, a call of
`Close`, and a pass of the loop of `auctionCloser`, either the ticker firing
at time `now` (with the backend failures of that tick) or the context being
done. -/
inductive Op where
  | CreateAuction (auctionEntity : AuctionEntity) (backendFails : Bool)
  | Close
  | tick (now : Int) (findFails : Bool) (updateFails : Nat → Bool)
  | done

/-- One operation on the repository. -/
def step (ar : AuctionRepository) : Op → AuctionRepository
  | .CreateAuction auctionEntity backendFails =>
    { ar with Collection := (CreateAuction ar.Collection auctionEntity backendFails).1 }
  | .Close => Close ar
  | .tick now findFails updateFails => auctionCloser ar (.tickerC now findFails updateFails)
  | .done => auctionCloser ar .ctxDone

/-- A sequence of operations, first to last. -/
def run (ar : AuctionRepository) : List Op → AuctionRepository
  | [] => ar
  | op :: ops => run (step ar op) ops

/-- The status a read of `id` observes (no backend failure on the read). -/
def statusOf (coll : Collection) (id : String) : Option AuctionStatus :=
  match FindAuctionById coll id false with
  | .error _ => none
  | .ok a => some a.Status

/-! ## The ticker -/

/-- The period of `time.NewTicker(time.Second * 10)`. -/
def checkCadence : Int := Second * 10

/-- The time the ticker started at `start` fires for the `k`-th time, `k ≥ 1`. -/
def tickTime (start : Int) (k : Nat) : Int := start + (k : Int) * checkCadence

/-- The number of times the ticker started at `start` has fired by time `t`,
a tick due exactly at `t` included. -/
def ticksBy (start t : Int) : Nat := ((t - start) / checkCadence).toNat

/-- The ticks number `k + 1` to `k + n` of the ticker started at `start`, each
running `closeExpiredAuctions` at the time it fires with no backend failure. -/
def runTicks (auctionInterval : Int) (start : Int) (k : Nat) :
    Nat → Collection → Collection
  | 0, coll => coll
  | n + 1, coll =>
    let coll1 := runTicks auctionInterval start k n coll
    (closeExpiredAuctions auctionInterval (tickTime start (k + n + 1)) coll1 false
      (fun _ => false)).1

/-- The collection a read at time `t` sees, when `coll` is the collection at
time `t0 ≤ t` and only the loop, started at `start ≤ t0` and not cancelled,
touches it in between: the ticks that fire after `t0` and not after `t` have
run. -/
def collectionAt (auctionInterval : Int) (start t0 : Int) (coll : Collection)
    (t : Int) : Collection :=
  runTicks auctionInterval start (ticksBy start t0) (ticksBy start t - ticksBy start t0) coll

/-! ## Observations on a tick -/

/-- The cutoff `closeExpiredAuctions` passes to the store at time `now`. -/
def cutoffAt (auctionInterval : Int) (now : Int) : Int :=
  unix (timeAdd now (negDuration auctionInterval))

/-- The `UpdateAuctionStatus` calls among the events of a tick, in order. -/
def updateCalls : List Event → List (String × AuctionStatus)
  | [] => []
  | .UpdateAuctionStatus id status :: rest => (id, status) :: updateCalls rest
  | _ :: rest => updateCalls rest

/-- The `FindActiveAuctionsOlderThan` calls among the events of a tick, in order. -/
def findCalls : List Event → List Int
  | [] => []
  | .FindActiveAuctionsOlderThan cutoff :: rest => cutoff :: findCalls rest
  | _ :: rest => findCalls rest

/-- The documents `FindActiveAuctionsOlderThan` selects at the given cutoff. -/
def expired (cutoff : Int) (a : AuctionEntityMongo) : Bool :=
  decide (a.Status = .Active ∧ a.Timestamp ≤ cutoff)

/-- The status overwritten on every document the predicate selects. -/
def completeWhere (p : AuctionEntityMongo → Bool) (coll : Collection) : Collection :=
  coll.map (fun a => if p a then { a with Status := .Completed } else a)

/-! ## Sample data -/

/-- An auction as the entity constructor makes it, Active and created at time
`t`. -/
def sampleAuction (id : String) (t : Int) : AuctionEntity :=
  { Id := id
    ProductName := "Test Product"
    Category := "Electronics"
    Description := "Test Description"
    Condition := .New
    Status := .Active
    Timestamp := t }

/-- The bytes of the value `2s`. -/
def env2s : List Nat := [50, 115]

/-- The bytes of the value `3s`. -/
def env3s : List Nat := [51, 115]

/-- The bytes of the value `-2s`. -/
def envMinus2s : List Nat := [45, 50, 115]

/-- The bytes of the value `-5s`. -/
def envMinus5s : List Nat := [45, 53, 115]

/-- The bytes of the value `-9223372036854775808ns`. -/
def envMinDuration : List Nat :=
  [45, 57, 50, 50, 51, 51, 55, 50, 48, 51, 54, 56, 53, 52, 55, 55, 53, 56, 48, 56, 110, 115]

/-- The least number of cadence periods that cover the interval. -/
def ceilDiv (a b : Int) : Int := (a + b - 1) / b

/-! ## The store calls: auxiliary facts -/

theorem wrapInt64_eq_self (x : Int) (h1 : -9223372036854775808 ≤ x)
    (h2 : x ≤ 9223372036854775807) : wrapInt64 x = x := by
  unfold wrapInt64
  omega

theorem negDuration_le_neg (d : Int) (h1 : -9223372036854775808 ≤ d)
    (h2 : d ≤ 9223372036854775807) : negDuration d ≤ -d := by
  show (-d + 9223372036854775808) % 18446744073709551616 - 9223372036854775808 ≤ -d
  omega

theorem negDuration_eq_neg (d : Int) (h1 : -9223372036854775808 < d)
    (h2 : d ≤ 9223372036854775807) : negDuration d = -d := by
  show (-d + 9223372036854775808) % 18446744073709551616 - 9223372036854775808 = -d
  omega

theorem statusOf_eq (coll : Collection) (id : String) :
    statusOf coll id = (coll.find? (fun a => a.Id = id)).map (fun a => a.Status) := by
  unfold statusOf FindAuctionById
  cases h : coll.find? (fun a => a.Id = id) <;> simp [h]

theorem ids_setStatus (id : String) (status : AuctionStatus) (coll : Collection) :
    ids (setStatus id status coll) = ids coll := by
  induction coll with
  | nil => rfl
  | cons a rest ih =>
    unfold setStatus
    split
    · simp [ids]
    · simp only [ids, List.map_cons] at ih ⊢
      rw [ih]

theorem find_setStatus_ne (id id1 : String) (status : AuctionStatus) (coll : Collection)
    (hne : id1 ≠ id) :
    (setStatus id status coll).find? (fun a => a.Id = id1) = coll.find? (fun a => a.Id = id1) := by
  induction coll with
  | nil => rfl
  | cons a rest ih =>
    unfold setStatus
    split
    · next h =>
      have h1 : ¬ a.Id = id1 := fun h2 => hne (h2.symm.trans h)
      simp [List.find?, h1]
    · by_cases h1 : a.Id = id1
      · simp [List.find?, h1]
      · simp [List.find?, h1, ih]

theorem find_setStatus_eq (id : String) (status : AuctionStatus) (coll : Collection) :
    (setStatus id status coll).find? (fun a => a.Id = id)
      = (coll.find? (fun a => a.Id = id)).map (fun a => { a with Status := status }) := by
  induction coll with
  | nil => rfl
  | cons a rest ih =>
    unfold setStatus
    by_cases h : a.Id = id
    · simp [List.find?, h]
    · simp [List.find?, h, ih]

theorem statusOf_setStatus_ne (id id1 : String) (status : AuctionStatus) (coll : Collection)
    (hne : id1 ≠ id) : statusOf (setStatus id status coll) id1 = statusOf coll id1 := by
  rw [statusOf_eq, statusOf_eq, find_setStatus_ne id id1 status coll hne]

theorem find_isSome_of_mem_ids (coll : Collection) (id : String) (h : id ∈ ids coll) :
    ∃ a, coll.find? (fun a => a.Id = id) = some a ∧ a.Id = id := by
  induction coll with
  | nil => simp [ids] at h
  | cons b rest ih =>
    by_cases hb : b.Id = id
    · exact ⟨b, by simp [List.find?, hb], hb⟩
    · have h1 : id ∈ ids rest := by
        simp only [ids, List.map_cons, List.mem_cons] at h
        rcases h with h | h
        · exact absurd h.symm hb
        · exact h
      obtain ⟨a, ha, hid⟩ := ih h1
      exact ⟨a, by simp [List.find?, hb, ha], hid⟩

theorem statusOf_setStatus_self (id : String) (status : AuctionStatus) (coll : Collection)
    (h : id ∈ ids coll) : statusOf (setStatus id status coll) id = some status := by
  obtain ⟨a, ha, _⟩ := find_isSome_of_mem_ids coll id h
  rw [statusOf_eq, find_setStatus_eq, ha]
  rfl

/-- An update to Completed never takes a Completed status away. -/
theorem statusOf_setStatus_completed (id id1 : String) (coll : Collection)
    (h : statusOf coll id1 = some .Completed) :
    statusOf (setStatus id .Completed coll) id1 = some .Completed := by
  by_cases hne : id1 = id
  · subst hne
    rw [statusOf_eq] at h ⊢
    rw [find_setStatus_eq]
    cases hf : coll.find? (fun a => a.Id = id1) with
    | none => rw [hf] at h; simp at h
    | some a => rfl
  · rw [statusOf_setStatus_ne id id1 _ coll hne]
    exact h

/-! ## The closing loop: auxiliary facts -/

theorem closeEach_ids (updateFails : Nat → Bool) (cands : List AuctionEntityMongo) :
    ∀ (k : Nat) (coll : Collection), ids (closeEach updateFails cands k coll).1 = ids coll := by
  induction cands with
  | nil => intro k coll; rfl
  | cons c rest ih =>
    intro k coll
    unfold closeEach UpdateAuctionStatus
    by_cases hf : updateFails k = true
    · simp [hf, ih]
    · by_cases hin : c.Id ∈ ids coll
      · simp [hf, hin, ih, ids_setStatus]
      · simp [hf, hin, ih]

theorem closeEach_updateCalls (updateFails : Nat → Bool) (cands : List AuctionEntityMongo) :
    ∀ (k : Nat) (coll : Collection),
      updateCalls (closeEach updateFails cands k coll).2
        = cands.map (fun a => (a.Id, AuctionStatus.Completed)) := by
  induction cands with
  | nil => intro k coll; rfl
  | cons c rest ih =>
    intro k coll
    unfold closeEach UpdateAuctionStatus
    by_cases hf : updateFails k = true
    · simp [hf, ih, updateCalls]
    · by_cases hin : c.Id ∈ ids coll
      · simp [hf, hin, ih, updateCalls]
      · simp [hf, hin, ih, updateCalls]

theorem closeEach_findCalls (updateFails : Nat → Bool) (cands : List AuctionEntityMongo) :
    ∀ (k : Nat) (coll : Collection), findCalls (closeEach updateFails cands k coll).2 = [] := by
  induction cands with
  | nil => intro k coll; rfl
  | cons c rest ih =>
    intro k coll
    unfold closeEach UpdateAuctionStatus
    by_cases hf : updateFails k = true
    · simp [hf, ih, findCalls]
    · by_cases hin : c.Id ∈ ids coll
      · simp [hf, hin, ih, findCalls]
      · simp [hf, hin, ih, findCalls]

/-- The loop never takes a Completed status away. -/
theorem closeEach_completed (updateFails : Nat → Bool) (id : String)
    (cands : List AuctionEntityMongo) :
    ∀ (k : Nat) (coll : Collection), statusOf coll id = some .Completed →
      statusOf (closeEach updateFails cands k coll).1 id = some .Completed := by
  induction cands with
  | nil => intro k coll h; exact h
  | cons c rest ih =>
    intro k coll h
    unfold closeEach UpdateAuctionStatus
    by_cases hf : updateFails k = true
    · simp [hf, ih _ _ h]
    · by_cases hin : c.Id ∈ ids coll
      · simp [hf, hin, ih _ _ (statusOf_setStatus_completed c.Id id coll h)]
      · simp [hf, hin, ih _ _ h]

/-- The loop leaves alone a document whose `_id` no candidate carries. -/
theorem closeEach_find_of_not_mem (updateFails : Nat → Bool) (id : String)
    (cands : List AuctionEntityMongo) (hid : ∀ c ∈ cands, c.Id ≠ id) :
    ∀ (k : Nat) (coll : Collection),
      (closeEach updateFails cands k coll).1.find? (fun a => a.Id = id)
        = coll.find? (fun a => a.Id = id) := by
  induction cands with
  | nil => intro k coll; rfl
  | cons c rest ih =>
    intro k coll
    have hc : c.Id ≠ id := hid c (List.mem_cons_self _ _)
    have hrest : ∀ c1 ∈ rest, c1.Id ≠ id := fun c1 h1 => hid c1 (List.mem_cons_of_mem _ h1)
    unfold closeEach UpdateAuctionStatus
    by_cases hf : updateFails k = true
    · simp [hf, ih hrest]
    · by_cases hin : c.Id ∈ ids coll
      · simp [hf, hin, ih hrest, find_setStatus_ne c.Id id _ coll (Ne.symm hc)]
      · simp [hf, hin, ih hrest]

/-- A candidate whose own update call does not fail is Completed after the
loop, whatever happens to the other calls. -/
theorem closeEach_completed_of_ok (updateFails : Nat → Bool)
    (cands : List AuctionEntityMongo) :
    ∀ (k : Nat) (coll : Collection) (j : Nat) (hj : j < cands.length),
      updateFails (k + j) = false → (cands.get ⟨j, hj⟩).Id ∈ ids coll →
      statusOf (closeEach updateFails cands k coll).1 (cands.get ⟨j, hj⟩).Id
        = some .Completed := by
  induction cands with
  | nil => intro k coll j hj; simp at hj
  | cons c rest ih =>
    intro k coll j hj hok hin
    cases j with
    | zero =>
      have hin0 : c.Id ∈ ids coll := hin
      show statusOf (closeEach updateFails (c :: rest) k coll).1 c.Id = some .Completed
      have hok0 : updateFails k = false := by simpa using hok
      unfold closeEach UpdateAuctionStatus
      simp only [hok0, hin0, if_true, Bool.false_eq_true, if_false]
      exact closeEach_completed updateFails c.Id rest (k + 1) _
        (statusOf_setStatus_self c.Id .Completed coll hin0)
    | succ j =>
      have hj1 : j < rest.length := by simpa using hj
      have hok1 : updateFails (k + 1 + j) = false := by
        have : k + 1 + j = k + (j + 1) := by omega
        rw [this]; exact hok
      simp only [List.get_cons_succ] at hin ⊢
      unfold closeEach UpdateAuctionStatus
      by_cases hf : updateFails k = true
      · simp only [hf, if_true]
        exact ih (k + 1) coll j hj1 hok1 hin
      · by_cases hc : c.Id ∈ ids coll
        · simp only [hf, hc, if_true, if_false]
          exact ih (k + 1) _ j hj1 hok1 (by rw [ids_setStatus]; exact hin)
        · simp only [hf, hc, if_false]
          exact ih (k + 1) coll j hj1 hok1 hin

/-! ## One tick and one operation: auxiliary facts -/

theorem closeExpiredAuctions_ids (L : Int) (now : Int) (coll : Collection)
    (findFails : Bool) (updateFails : Nat → Bool) :
    ids (closeExpiredAuctions L now coll findFails updateFails).1 = ids coll := by
  unfold closeExpiredAuctions FindActiveAuctionsOlderThan
  cases findFails <;> simp [closeEach_ids]

theorem closeExpiredAuctions_completed (L : Int) (now : Int) (coll : Collection)
    (findFails : Bool) (updateFails : Nat → Bool) (id : String)
    (h : statusOf coll id = some .Completed) :
    statusOf (closeExpiredAuctions L now coll findFails updateFails).1 id = some .Completed := by
  unfold closeExpiredAuctions FindActiveAuctionsOlderThan
  cases findFails
  · simpa using closeEach_completed updateFails id _ 0 coll h
  · simpa using h

theorem find_append_of_isSome (coll : Collection) (doc : AuctionEntityMongo) (id : String)
    (a : AuctionEntityMongo) (h : coll.find? (fun a => a.Id = id) = some a) :
    (coll ++ [doc]).find? (fun a => a.Id = id) = some a := by
  rw [List.find?_append, h]
  rfl

theorem CreateAuction_find (coll : Collection) (e : AuctionEntity) (backendFails : Bool)
    (id : String) (a : AuctionEntityMongo) (h : coll.find? (fun a => a.Id = id) = some a) :
    (CreateAuction coll e backendFails).1.find? (fun a => a.Id = id) = some a := by
  unfold CreateAuction InsertOne
  by_cases hb : backendFails = true
  · simp [hb, h]
  · by_cases hin : (toMongo e).Id ∈ ids coll
    · simp [hb, hin, h]
    · simp only [hb, hin, if_false]
      exact find_append_of_isSome coll _ id a h

theorem CreateAuction_completed (coll : Collection) (e : AuctionEntity) (backendFails : Bool)
    (id : String) (h : statusOf coll id = some .Completed) :
    statusOf (CreateAuction coll e backendFails).1 id = some .Completed := by
  rw [statusOf_eq] at h ⊢
  cases hf : coll.find? (fun a => a.Id = id) with
  | none => rw [hf] at h; simp at h
  | some a =>
    rw [CreateAuction_find coll e backendFails id a hf]
    rw [hf] at h
    exact h

theorem CreateAuction_uniqueIds (coll : Collection) (e : AuctionEntity) (backendFails : Bool)
    (h : UniqueIds coll) : UniqueIds (CreateAuction coll e backendFails).1 := by
  unfold CreateAuction InsertOne
  by_cases hb : backendFails = true
  · simpa [hb] using h
  · by_cases hin : (toMongo e).Id ∈ ids coll
    · simpa [hb, hin] using h
    · have hb1 : backendFails = false := by simpa using hb
      simp only [hb1, hin, Bool.false_eq_true, if_false]
      unfold UniqueIds ids at *
      rw [List.map_append, List.nodup_append]
      refine ⟨h, by simp, ?_⟩
      intro x hx hx1
      simp only [List.map_cons, List.map_nil, List.mem_singleton] at hx1
      subst hx1
      exact hin hx

theorem step_tick_collection (ar : AuctionRepository) (now : Int) (findFails : Bool)
    (updateFails : Nat → Bool) :
    (step ar (.tick now findFails updateFails)).Collection
      = if ar.closer = .Running then
          (closeExpiredAuctions ar.auctionInterval now ar.Collection findFails updateFails).1
        else ar.Collection := by
  simp only [step, auctionCloser]
  split <;> rfl

theorem step_done_collection (ar : AuctionRepository) :
    (step ar .done).Collection = ar.Collection := by
  simp only [step, auctionCloser]
  split <;> rfl

theorem step_completed (ar : AuctionRepository) (op : Op) (id : String)
    (h : statusOf ar.Collection id = some .Completed) :
    statusOf (step ar op).Collection id = some .Completed := by
  cases op with
  | CreateAuction e backendFails =>
    show statusOf (CreateAuction ar.Collection e backendFails).1 id = some .Completed
    exact CreateAuction_completed _ e backendFails id h
  | Close => exact h
  | tick now findFails updateFails =>
    rw [step_tick_collection]
    split
    · exact closeExpiredAuctions_completed _ now _ findFails updateFails id h
    · exact h
  | done =>
    rw [step_done_collection]
    exact h

theorem step_uniqueIds (ar : AuctionRepository) (op : Op) (h : UniqueIds ar.Collection) :
    UniqueIds (step ar op).Collection := by
  cases op with
  | CreateAuction e backendFails =>
    show UniqueIds (CreateAuction ar.Collection e backendFails).1
    exact CreateAuction_uniqueIds _ e backendFails h
  | Close => exact h
  | tick now findFails updateFails =>
    rw [step_tick_collection]
    split
    · unfold UniqueIds at *
      rw [closeExpiredAuctions_ids]
      exact h
    · exact h
  | done =>
    rw [step_done_collection]
    exact h

theorem run_append (ar : AuctionRepository) (ops1 ops2 : List Op) :
    run ar (ops1 ++ ops2) = run (run ar ops1) ops2 := by
  induction ops1 generalizing ar with
  | nil => rfl
  | cons op rest ih => exact ih (step ar op)

theorem run_completed (ops : List Op) :
    ∀ (ar : AuctionRepository) (id : String), statusOf ar.Collection id = some .Completed →
      statusOf (run ar ops).Collection id = some .Completed := by
  induction ops with
  | nil => intro ar id h; exact h
  | cons op rest ih => intro ar id h; exact ih (step ar op) id (step_completed ar op id h)

theorem findCalls_append (es1 es2 : List Event) :
    findCalls (es1 ++ es2) = findCalls es1 ++ findCalls es2 := by
  induction es1 with
  | nil => rfl
  | cons e rest ih => cases e <;> simp [findCalls, ih]

theorem updateCalls_append (es1 es2 : List Event) :
    updateCalls (es1 ++ es2) = updateCalls es1 ++ updateCalls es2 := by
  induction es1 with
  | nil => rfl
  | cons e rest ih => cases e <;> simp [updateCalls, ih]

theorem closeExpiredAuctions_scan_fails (L : Int) (now : Int) (coll : Collection)
    (updateFails : Nat → Bool) :
    closeExpiredAuctions L now coll true updateFails
      = (coll, [.FindActiveAuctionsOlderThan (cutoffAt L now),
                .logError "Error finding expired auctions"]) := by
  rfl

theorem closeExpiredAuctions_findCalls (L : Int) (now : Int) (coll : Collection)
    (findFails : Bool) (updateFails : Nat → Bool) :
    findCalls (closeExpiredAuctions L now coll findFails updateFails).2 = [cutoffAt L now] := by
  unfold closeExpiredAuctions FindActiveAuctionsOlderThan
  cases findFails
  · simp [findCalls, closeEach_findCalls, cutoffAt]
  · simp [findCalls, cutoffAt]

theorem step_tick_running (ar : AuctionRepository) (now : Int) (findFails : Bool)
    (updateFails : Nat → Bool) (hrun : ar.closer = .Running) :
    step ar (.tick now findFails updateFails)
      = { ar with
          Collection :=
            (closeExpiredAuctions ar.auctionInterval now ar.Collection findFails updateFails).1
          events := ar.events
            ++ (closeExpiredAuctions ar.auctionInterval now ar.Collection findFails
                  updateFails).2 } := by
  simp only [step, auctionCloser, hrun, if_true]

/-! ## `ParseDuration`: auxiliary facts -/

theorem leadingInt_length (s : List Nat) :
    ∀ (x v : Nat) (r : List Nat), leadingInt s x = some (v, r) → r.length ≤ s.length := by
  induction s with
  | nil =>
    intro x v r h
    simp only [leadingInt, Option.some.injEq, Prod.mk.injEq] at h
    rw [← h.2]
  | cons c t ih =>
    intro x v r h
    unfold leadingInt at h
    split at h
    · simp only [Option.some.injEq, Prod.mk.injEq] at h
      rw [← h.2]
    · split at h
      · simp at h
      · simp only at h
        split at h
        · simp at h
        · have := ih _ v r h
          simp only [List.length_cons]
          omega

theorem leadingFraction_length (s : List Nat) :
    ∀ (x scale : Nat) (overflow : Bool),
      (leadingFraction s x scale overflow).2.2.length ≤ s.length := by
  induction s with
  | nil => intro x scale overflow; simp [leadingFraction]
  | cons c t ih =>
    intro x scale overflow
    unfold leadingFraction
    split
    · simp
    · split
      · have := ih x scale true
        simp only [List.length_cons]
        omega
      · split
        · have := ih x scale true
          simp only [List.length_cons]
          omega
        · simp only
          split
          · have := ih x scale true
            simp only [List.length_cons]
            omega
          · have := ih ((x * 10 + c - 48) % 18446744073709551616) (scale * 10) false
            simp only [List.length_cons]
            omega

theorem length_takeWhile_add_dropWhile (p : Nat → Bool) (s : List Nat) :
    (s.takeWhile p).length + (s.dropWhile p).length = s.length := by
  rw [← List.length_append, List.takeWhile_append_dropWhile]

/-- The iteration bound `ParseDuration` gives its loop, the length of the
string, is never used up: every iteration consumes at least one byte. -/
theorem parseLoop_isSome (fuel : Nat) :
    ∀ (s : List Nat) (d : Nat), s.length ≤ fuel → (parseLoop fuel s d).isSome = true := by
  induction fuel with
  | zero =>
    intro s d h
    cases s with
    | nil => rfl
    | cons c t => simp at h
  | succ fuel ih =>
    intro s d h
    cases s with
    | nil => rfl
    | cons c t =>
      unfold parseLoop
      split
      · rfl
      · split
        · rfl
        · next v s1 hli =>
          have h1 : s1.length ≤ (c :: t).length := leadingInt_length (c :: t) 0 v s1 hli
          simp only [List.length_cons] at h h1
          cases s1 with
          | nil =>
            rfl
          | cons b s2 =>
            by_cases hb : b = 46
            · subst hb
              simp only []
              have h2 := leadingFraction_length s2 0 1 false
              have h3 := length_takeWhile_add_dropWhile (fun b => !isDigitOrDot b)
                (leadingFraction s2 0 1 false).2.2
              simp only [List.length_cons] at h1
              repeat' (first | rfl | (apply ih; omega) | split)
            · have h3 := length_takeWhile_add_dropWhile (fun b => !isDigitOrDot b) (b :: s2)
              simp only [List.length_cons] at h1 h3
              split
              · next heq => simp only [List.cons.injEq] at heq; exact absurd heq.1 hb
              · simp only []
                repeat' (first | rfl | (apply ih; omega) | split)

theorem wrapInt64_range (x : Int) :
    -9223372036854775808 ≤ wrapInt64 x ∧ wrapInt64 x ≤ 9223372036854775807 := by
  unfold wrapInt64
  omega

/-- What `ParseDuration` returns is an int64. -/
theorem ParseDuration_range (s : List Nat) (d : Int) (h : ParseDuration s = .ok d) :
    minDuration ≤ d ∧ d ≤ maxDuration := by
  have hr : ∀ x : Int, minDuration ≤ wrapInt64 x ∧ wrapInt64 x ≤ maxDuration :=
    fun x => wrapInt64_range x
  unfold ParseDuration at h
  simp only at h
  split at h
  · simp only [Except.ok.injEq] at h
    rw [← h]
    exact ⟨by decide, by decide⟩
  · split at h
    · simp at h
    · split at h
      · simp at h
      · simp at h
      · split at h
        · simp only [Except.ok.injEq] at h
          rw [← h]
          exact hr _
        · split at h
          · simp at h
          · simp only [Except.ok.injEq] at h
            rw [← h]
            exact hr _

/-- The loop of `ParseDuration` always returns with the bound it is given. -/
theorem ParseDuration_loop_returns (s : List Nat) :
    (parseLoop s.length s 0).isSome = true :=
  parseLoop_isSome s.length s 0 (Nat.le_refl _)

/-! ## A tick without failure, as a map over the collection -/

theorem eq_of_mem_of_id_eq (coll : Collection) (h : UniqueIds coll)
    (a b : AuctionEntityMongo) (ha : a ∈ coll) (hb : b ∈ coll) (hid : a.Id = b.Id) : a = b := by
  unfold UniqueIds ids at h
  exact List.inj_on_of_nodup_map h ha hb hid

theorem mem_of_find (coll : Collection) (id : String) (a : AuctionEntityMongo)
    (h : coll.find? (fun a => a.Id = id) = some a) : a ∈ coll ∧ a.Id = id := by
  refine ⟨List.mem_of_find?_eq_some h, ?_⟩
  have := List.find?_some h
  simpa using this

theorem find_of_mem (coll : Collection) (h : UniqueIds coll) (a : AuctionEntityMongo)
    (ha : a ∈ coll) : coll.find? (fun b => b.Id = a.Id) = some a := by
  obtain ⟨b, hb, hid⟩ := find_isSome_of_mem_ids coll a.Id (List.mem_map_of_mem _ ha)
  have hb1 := (mem_of_find coll a.Id b hb).1
  rw [hb, eq_of_mem_of_id_eq coll h b a hb1 ha hid]

theorem setStatus_eq_map (id : String) (status : AuctionStatus) (coll : Collection)
    (h : UniqueIds coll) :
    setStatus id status coll
      = coll.map (fun a => if a.Id = id then { a with Status := status } else a) := by
  induction coll with
  | nil => rfl
  | cons a rest ih =>
    have hn : a.Id ∉ ids rest ∧ UniqueIds rest := by
      unfold UniqueIds ids at h ⊢
      simpa using h
    unfold setStatus
    by_cases ha : a.Id = id
    · simp only [ha, if_true, List.map_cons, List.cons.injEq, true_and]
      symm
      rw [List.map_congr_left (g := fun b => b), List.map_id']
      intro b hb
      have : b.Id ≠ id := by
        intro hbid
        apply hn.1
        rw [ha, ← hbid]
        exact List.mem_map_of_mem _ hb
      simp [this]
    · simp only [ha, if_false, List.map_cons, ih hn.2]

theorem ids_map_status (coll : Collection) (f : AuctionEntityMongo → AuctionEntityMongo)
    (hf : ∀ a, (f a).Id = a.Id) : ids (coll.map f) = ids coll := by
  unfold ids
  rw [List.map_map]
  apply List.map_congr_left
  intro a _
  exact hf a

theorem closeEach_noFail (cands : List AuctionEntityMongo) :
    ∀ (k : Nat) (coll : Collection), (∀ c ∈ cands, c.Id ∈ ids coll) → UniqueIds coll →
      (closeEach (fun _ => false) cands k coll).1
        = completeWhere (fun a => a.Id ∈ ids cands) coll := by
  induction cands with
  | nil =>
    intro k coll _ _
    simp [closeEach, completeWhere, ids]
  | cons c rest ih =>
    intro k coll hin hu
    have hc : c.Id ∈ ids coll := hin c (List.mem_cons_self _ _)
    have hu1 : UniqueIds (setStatus c.Id .Completed coll) := by
      unfold UniqueIds
      rw [ids_setStatus]
      exact hu
    have hin1 : ∀ c1 ∈ rest, c1.Id ∈ ids (setStatus c.Id .Completed coll) := by
      intro c1 h1
      rw [ids_setStatus]
      exact hin c1 (List.mem_cons_of_mem _ h1)
    unfold closeEach UpdateAuctionStatus
    simp only [hc, if_true, Bool.false_eq_true, if_false]
    rw [ih (k + 1) _ hin1 hu1, setStatus_eq_map c.Id .Completed coll hu]
    unfold completeWhere
    rw [List.map_map]
    apply List.map_congr_left
    intro a _
    by_cases h1 : a.Id = c.Id
    · by_cases h2 : a.Id ∈ ids rest
      · simp [h1, h2, ids]
      · simp only [Function.comp, h1, if_true, ids, List.map_cons, List.mem_cons, true_or,
          decide_True]
        split <;> rfl
    · by_cases h2 : a.Id ∈ ids rest
      · simp only [Function.comp, h1, if_false, ids, List.map_cons, List.mem_cons, false_or]
      · simp only [Function.comp, h1, if_false, ids, List.map_cons, List.mem_cons, false_or]

theorem mem_ids_filter (coll : Collection) (h : UniqueIds coll) (p : AuctionEntityMongo → Bool)
    (a : AuctionEntityMongo) (ha : a ∈ coll) : a.Id ∈ ids (coll.filter p) ↔ p a = true := by
  constructor
  · intro hin
    unfold ids at hin
    obtain ⟨c, hc, hid⟩ := List.mem_map.1 hin
    have hc1 := List.mem_filter.1 hc
    rw [← eq_of_mem_of_id_eq coll h c a hc1.1 ha hid]
    exact hc1.2
  · intro hp
    exact List.mem_map_of_mem _ (List.mem_filter.2 ⟨ha, hp⟩)

/-- With no backend failure and unique `_id`s, a tick overwrites the status of
exactly the documents the scan selects. -/
theorem closeExpiredAuctions_noFail (L : Int) (now : Int) (coll : Collection)
    (h : UniqueIds coll) :
    (closeExpiredAuctions L now coll false (fun _ => false)).1
      = completeWhere (expired (cutoffAt L now)) coll := by
  unfold closeExpiredAuctions FindActiveAuctionsOlderThan
  simp only [Bool.false_eq_true, if_false]
  rw [closeEach_noFail _ 0 coll _ h]
  · unfold completeWhere
    apply List.map_congr_left
    intro a ha
    have := mem_ids_filter coll h (expired (cutoffAt L now)) a ha
    unfold expired cutoffAt at this
    by_cases hp : a.Status = .Active ∧ a.Timestamp ≤ unix (timeAdd now (negDuration L))
    · have h1 := this.2 (by simpa using hp)
      simp only [expired, cutoffAt, hp, h1, decide_True, if_true]
      simp
    · have h1 : ¬ a.Id ∈ ids (coll.filter (fun a => decide
          (a.Status = .Active ∧ a.Timestamp ≤ unix (timeAdd now (negDuration L))))) := by
        intro h2
        exact hp (by simpa using this.1 h2)
      simp only [expired, cutoffAt, hp, h1, decide_False, if_false]
  · intro c hc
    exact List.mem_map_of_mem _ (List.mem_filter.1 hc).1

theorem find_completeWhere (p : AuctionEntityMongo → Bool) (coll : Collection) (id : String) :
    (completeWhere p coll).find? (fun a => a.Id = id)
      = (coll.find? (fun a => a.Id = id)).map
          (fun a => if p a then { a with Status := .Completed } else a) := by
  unfold completeWhere
  induction coll with
  | nil => rfl
  | cons a rest ih =>
    by_cases ha : a.Id = id
    · by_cases hp : p a = true <;> simp [List.find?, ha, hp]
    · by_cases hp : p a = true <;> simp [List.find?, ha, hp, ih]

theorem completeWhere_uniqueIds (p : AuctionEntityMongo → Bool) (coll : Collection)
    (h : UniqueIds coll) : UniqueIds (completeWhere p coll) := by
  unfold UniqueIds completeWhere at *
  rw [ids_map_status]
  · exact h
  · intro a
    split <;> rfl

/-! ## Time: auxiliary facts -/

theorem cutoffAt_lt (L : Int) (now s0 : Int) (h1 : -9223372036854775808 ≤ L)
    (h2 : L ≤ 9223372036854775807) (h : now < s0 * 1000000000 + L) : cutoffAt L now < s0 := by
  have hn := negDuration_le_neg L h1 h2
  show (now + negDuration L) / 1000000000 < s0
  omega

theorem cutoffAt_ge (L : Int) (now t0 : Int) (h1 : 0 ≤ L) (h2 : L ≤ 9223372036854775807)
    (h : t0 + L ≤ now) : unix t0 ≤ cutoffAt L now := by
  have hn := negDuration_eq_neg L (by omega) h2
  show t0 / 1000000000 ≤ (now + negDuration L) / 1000000000
  omega

/-! ## Ticks and one auction: auxiliary facts -/

/-- A tick, whatever fails in it, leaves alone a document the scan does not
select. -/
theorem closeExpiredAuctions_find_of_not_expired (L : Int) (now : Int)
    (coll : Collection) (findFails : Bool) (updateFails : Nat → Bool) (hU : UniqueIds coll)
    (id : String) (a : AuctionEntityMongo) (hf : coll.find? (fun a => a.Id = id) = some a)
    (hne : expired (cutoffAt L now) a = false) :
    (closeExpiredAuctions L now coll findFails updateFails).1.find? (fun a => a.Id = id)
      = some a := by
  unfold closeExpiredAuctions FindActiveAuctionsOlderThan
  cases findFails
  · simp only [Bool.false_eq_true, if_false]
    rw [closeEach_find_of_not_mem updateFails id _ _ 0 coll, hf]
    intro c hc hid
    have hc1 := List.mem_filter.1 hc
    have ha := mem_of_find coll id a hf
    have hca : c = a := eq_of_mem_of_id_eq coll hU c a hc1.1 ha.1 (hid.trans ha.2.symm)
    rw [hca] at hc1
    have : expired (cutoffAt L now) a = true := hc1.2
    rw [hne] at this
    exact absurd this (by simp)
  · simpa using hf

theorem step_auctionInterval (ar : AuctionRepository) (op : Op) :
    (step ar op).auctionInterval = ar.auctionInterval := by
  cases op with
  | CreateAuction e backendFails => rfl
  | Close => rfl
  | tick now findFails updateFails =>
    simp only [step, auctionCloser]
    split <;> rfl
  | done =>
    simp only [step, auctionCloser]
    split <;> rfl

/-- A document stays as it is along operations whose ticks all run before its
stored timestamp plus the interval. -/
theorem run_find_of_ticks_before (a : AuctionEntityMongo) (L : Int)
    (h1 : -9223372036854775808 ≤ L) (h2 : L ≤ 9223372036854775807) (ops : List Op) :
    ∀ (ar : AuctionRepository), ar.auctionInterval = L → UniqueIds ar.Collection →
      ar.Collection.find? (fun b => b.Id = a.Id) = some a →
      (∀ (now : Int) (findFails : Bool) (updateFails : Nat → Bool),
        Op.tick now findFails updateFails ∈ ops → now < a.Timestamp * 1000000000 + L) →
      (run ar ops).Collection.find? (fun b => b.Id = a.Id) = some a := by
  induction ops with
  | nil => intro ar _ _ hf _; exact hf
  | cons op rest ih =>
    intro ar hL hU hf hops
    apply ih (step ar op) ((step_auctionInterval ar op).trans hL) (step_uniqueIds ar op hU)
    · cases op with
      | CreateAuction e backendFails => exact CreateAuction_find _ e backendFails a.Id a hf
      | Close => exact hf
      | tick now findFails updateFails =>
        rw [step_tick_collection]
        split
        · apply closeExpiredAuctions_find_of_not_expired _ now _ findFails updateFails hU a.Id a hf
          have hlt := cutoffAt_lt L now a.Timestamp h1 h2
            (hops now findFails updateFails (List.mem_cons_self _ _))
          rw [hL]
          unfold expired
          simp only [decide_eq_false_iff_not, not_and, not_le]
          intro _
          exact hlt
        · exact hf
      | done =>
        rw [step_done_collection]
        exact hf
    · intro now findFails updateFails hmem
      exact hops now findFails updateFails (List.mem_cons_of_mem _ hmem)

/-- A tick without failure keeps a document in the collection, with the
timestamp it is stored with. -/
theorem tick_keeps_record (L now : Int) (coll : Collection) (hU : UniqueIds coll)
    (id : String) (ts : Int)
    (h : ∃ a, coll.find? (fun b => b.Id = id) = some a ∧ a.Timestamp = ts) :
    ∃ a, (closeExpiredAuctions L now coll false (fun _ => false)).1.find?
        (fun b => b.Id = id) = some a ∧ a.Timestamp = ts := by
  obtain ⟨a, ha, hts⟩ := h
  rw [closeExpiredAuctions_noFail L now coll hU, find_completeWhere, ha]
  by_cases hp : expired (cutoffAt L now) a = true
  · exact ⟨{ a with Status := .Completed }, by simp [hp], hts⟩
  · exact ⟨a, by simp [hp], hts⟩

theorem tick_uniqueIds (L now : Int) (coll : Collection) (findFails : Bool)
    (updateFails : Nat → Bool) (hU : UniqueIds coll) :
    UniqueIds (closeExpiredAuctions L now coll findFails updateFails).1 := by
  unfold UniqueIds at *
  rw [closeExpiredAuctions_ids]
  exact hU

/-- A tick without failure whose cutoff has reached the stored timestamp of a
document leaves that document Completed. -/
theorem tick_closes (L now : Int) (coll : Collection) (hU : UniqueIds coll)
    (id : String) (ts : Int)
    (h : ∃ a, coll.find? (fun b => b.Id = id) = some a ∧ a.Timestamp = ts)
    (hts : ts ≤ cutoffAt L now) :
    statusOf (closeExpiredAuctions L now coll false (fun _ => false)).1 id
      = some .Completed := by
  obtain ⟨a, ha, hat⟩ := h
  rw [statusOf_eq, closeExpiredAuctions_noFail L now coll hU, find_completeWhere, ha]
  by_cases hp : expired (cutoffAt L now) a = true
  · simp [hp]
  · have hs : a.Status = .Completed := by
      unfold expired at hp
      simp only [decide_eq_true_eq, not_and, not_le] at hp
      cases hst : a.Status with
      | Active => exact absurd (hat ▸ hts) (not_le.2 (hp hst))
      | Completed => rfl
    simp [hp, hs]

theorem runTicks_invariant (L start : Int) (k : Nat) (id : String) (ts : Int) (n : Nat) :
    ∀ (coll : Collection), UniqueIds coll →
      (∃ a, coll.find? (fun b => b.Id = id) = some a ∧ a.Timestamp = ts) →
      UniqueIds (runTicks L start k n coll)
        ∧ ∃ a, (runTicks L start k n coll).find? (fun b => b.Id = id) = some a
            ∧ a.Timestamp = ts := by
  induction n with
  | zero => intro coll hU h; exact ⟨hU, h⟩
  | succ n ih =>
    intro coll hU h
    obtain ⟨hU1, h1⟩ := ih coll hU h
    exact ⟨tick_uniqueIds L _ _ false _ hU1, tick_keeps_record L _ _ hU1 id ts h1⟩

/-- When one of the ticks number `k + 1` to `k + n` has a cutoff at or after
the stored timestamp of a document, the document is Completed after them. -/
theorem runTicks_completed (L start : Int) (k : Nat) (id : String) (ts : Int) (n : Nat) :
    ∀ (coll : Collection) (j : Nat), UniqueIds coll →
      (∃ a, coll.find? (fun b => b.Id = id) = some a ∧ a.Timestamp = ts) →
      j < n → ts ≤ cutoffAt L (tickTime start (k + j + 1)) →
      statusOf (runTicks L start k n coll) id = some .Completed := by
  induction n with
  | zero => intro coll j _ _ hj; omega
  | succ n ih =>
    intro coll j hU h hj hts
    obtain ⟨hU1, h1⟩ := runTicks_invariant L start k id ts n coll hU h
    by_cases hjn : j = n
    · subst hjn
      exact tick_closes L _ _ hU1 id ts h1 hts
    · have hc := ih coll j hU h (by omega) hts
      exact closeExpiredAuctions_completed L _ _ false _ id hc

theorem checkCadence_eq : checkCadence = 10000000000 := by decide

theorem tickTime_eq (start : Int) (k : Nat) :
    tickTime start k = start + (k : Int) * 10000000000 := by
  unfold tickTime
  rw [checkCadence_eq]

theorem ticksBy_eq (start t : Int) : ticksBy start t = ((t - start) / 10000000000).toNat := by
  unfold ticksBy
  rw [checkCadence_eq]

/-- A read at or after the time tick number `m` fires, `m` being a tick after
`t0` whose cutoff has reached the stored timestamp, sees the document
Completed. -/
theorem collectionAt_completed (L start t0 t : Int) (coll : Collection) (hU : UniqueIds coll)
    (id : String) (ts : Int)
    (h : ∃ a, coll.find? (fun b => b.Id = id) = some a ∧ a.Timestamp = ts)
    (m : Nat) (hm0 : ticksBy start t0 < m) (hm1 : tickTime start m ≤ t)
    (hts : ts ≤ cutoffAt L (tickTime start m)) :
    statusOf (collectionAt L start t0 coll t) id = some .Completed := by
  unfold collectionAt
  have hmt : m ≤ ticksBy start t := by
    rw [ticksBy_eq]
    rw [tickTime_eq] at hm1
    omega
  have hj : ticksBy start t0 + (m - ticksBy start t0 - 1) + 1 = m := by omega
  apply runTicks_completed L start (ticksBy start t0) id ts _ coll (m - ticksBy start t0 - 1)
    hU h (by omega)
  rw [hj]
  exact hts

theorem CreateAuction_find_new (coll : Collection) (e : AuctionEntity)
    (hc : (CreateAuction coll e false).2 = none) :
    (CreateAuction coll e false).1.find? (fun b => b.Id = (toMongo e).Id) = some (toMongo e) := by
  unfold CreateAuction InsertOne at hc ⊢
  by_cases hin : (toMongo e).Id ∈ ids coll
  · simp [hin] at hc
  · simp only [hin, if_false, Bool.false_eq_true]
    rw [List.find?_append]
    have hnone : coll.find? (fun b => b.Id = (toMongo e).Id) = none := by
      rw [List.find?_eq_none]
      intro b hb hbid
      apply hin
      have : b.Id = (toMongo e).Id := by simpa using hbid
      rw [← this]
      exact List.mem_map_of_mem _ hb
    rw [hnone]
    simp

theorem run_stopped (ops : List Op) :
    ∀ (ar : AuctionRepository), ar.closer = .Stopped →
      (run ar ops).closer = .Stopped ∧ (run ar ops).events = ar.events
        ∧ (run ar ops).started = ar.started := by
  induction ops with
  | nil => intro ar h; exact ⟨h, rfl, rfl⟩
  | cons op rest ih =>
    intro ar h
    have hs : (step ar op).closer = .Stopped ∧ (step ar op).events = ar.events
        ∧ (step ar op).started = ar.started := by
      cases op with
      | CreateAuction e backendFails => exact ⟨h, rfl, rfl⟩
      | Close => exact ⟨h, rfl, rfl⟩
      | tick now findFails updateFails => simp [step, auctionCloser, h]
      | done => simp [step, auctionCloser, h]
    obtain ⟨h1, h2, h3⟩ := ih (step ar op) hs.1
    exact ⟨h1, h2.trans hs.2.1, h3.trans hs.2.2⟩

/-! ## The claims -/

/-- C1, the claim as stated fails: with `AUCTION_INTERVAL=2s`, an auction
created 0.9 s after the epoch second is a candidate of the tick that runs at
2.5 s, strictly before creation time + interval = 2.9 s, and is Completed
after that tick. -/
theorem closed_before_interval_elapsed :
    (NewAuctionRepository [] (some env2s)).auctionInterval = 2 * Second
      ∧ (2500000000 : Int) < (sampleAuction "a1" 900000000).Timestamp + 2 * Second
      ∧ toMongo (sampleAuction "a1" 900000000)
          ∈ (CreateAuction [] (sampleAuction "a1" 900000000) false).1.filter
              (expired (cutoffAt (2 * Second) 2500000000))
      ∧ statusOf (run (step (NewAuctionRepository [] (some env2s))
            (.CreateAuction (sampleAuction "a1" 900000000) false))
          [.tick 2500000000 false (fun _ => false)]).Collection "a1" = some .Completed := by
  decide

/-- C1, amended. An auction persisted through `CreateAuction` with status
Active on a repository whose interval is `L` (an int64) is not a candidate of
any tick that runs at a time `now` strictly before `s0 + L`, where `s0` is the
creation time cut down to whole epoch seconds, and along every sequence of
operations whose ticks all run before `s0 + L` a read finds the record as
stored, with status Active. -/
theorem createAuction_active_before_stored_second_plus_interval
    (ar : AuctionRepository) (e : AuctionEntity) (ops : List Op)
    (hL : minDuration ≤ ar.auctionInterval ∧ ar.auctionInterval ≤ maxDuration)
    (hU : UniqueIds ar.Collection) (hA : e.Status = .Active)
    (hc : (CreateAuction ar.Collection e false).2 = none)
    (hops : ∀ (now : Int) (findFails : Bool) (updateFails : Nat → Bool),
      Op.tick now findFails updateFails ∈ ops →
        now < unix e.Timestamp * 1000000000 + ar.auctionInterval) :
    (∀ (coll : Collection) (now : Int),
        now < unix e.Timestamp * 1000000000 + ar.auctionInterval →
        toMongo e ∉ coll.filter (expired (cutoffAt ar.auctionInterval now)))
      ∧ FindAuctionById (run (step ar (.CreateAuction e false)) ops).Collection e.Id false
          = .ok (toMongo e)
      ∧ statusOf (run (step ar (.CreateAuction e false)) ops).Collection e.Id
          = some .Active := by
  have hfind := run_find_of_ticks_before (toMongo e) ar.auctionInterval hL.1 hL.2 ops
    (step ar (.CreateAuction e false)) rfl
    (CreateAuction_uniqueIds ar.Collection e false hU)
    (CreateAuction_find_new ar.Collection e hc) hops
  refine ⟨?_, ?_, ?_⟩
  · intro coll now hnow hmem
    have h1 := (List.mem_filter.1 hmem).2
    have h2 := cutoffAt_lt ar.auctionInterval now (unix e.Timestamp) hL.1 hL.2 hnow
    unfold expired at h1
    simp only [decide_eq_true_eq] at h1
    have h3 : (toMongo e).Timestamp = unix e.Timestamp := rfl
    omega
  · unfold FindAuctionById
    have h3 : (toMongo e).Id = e.Id := rfl
    rw [h3] at hfind
    simp [hfind]
  · rw [statusOf_eq]
    have h3 : (toMongo e).Id = e.Id := rfl
    rw [h3] at hfind
    rw [hfind]
    exact congrArg some hA

/-- C1, the amended claim at a concrete input: interval 2 s, an auction
created at 0.9 s, a tick at 1.999999999 s, then `Close` and the end of the
loop. -/
theorem createAuction_active_before_stored_second_plus_interval_witness :
    statusOf (run (step (NewAuctionRepository [] (some env2s))
          (.CreateAuction (sampleAuction "a1" 900000000) false))
        [.tick 1999999999 false (fun _ => false), .Close, .done]).Collection "a1"
      = some .Active :=
  (createAuction_active_before_stored_second_plus_interval
    (NewAuctionRepository [] (some env2s)) (sampleAuction "a1" 900000000)
    [.tick 1999999999 false (fun _ => false), .Close, .done]
    (by decide) (by decide) (by decide) (by decide)
    (by
      intro now findFails updateFails hmem
      simp only [List.mem_cons, Op.tick.injEq, List.mem_singleton, List.not_mem_nil,
        or_false, reduceCtorEq] at hmem
      rw [hmem.1]
      decide)).2.2

/-- C2. Partial-failure isolation. For every collection, every list of
candidates and every pattern of failing update calls, the loop of
`closeExpiredAuctions` calls `UpdateAuctionStatus(id, Completed)` once for each
candidate, in order; and a candidate whose own update succeeds (call number
`j` does not fail on the backend and its `_id` is in the collection) is
Completed after the loop, whatever the other calls did. When the scan of the
tick returns that list, the tick is the scan followed by this loop. -/
theorem closeExpiredAuctions_partial_failure_isolation
    (L : Int) (now : Int) (coll : Collection) (updateFails : Nat → Bool)
    (cands : List AuctionEntityMongo) (j : Nat) (hj : j < cands.length)
    (hok : updateFails j = false) (hin : (cands.get ⟨j, hj⟩).Id ∈ ids coll) :
    updateCalls (closeEach updateFails cands 0 coll).2
        = cands.map (fun a => (a.Id, AuctionStatus.Completed))
      ∧ statusOf (closeEach updateFails cands 0 coll).1 (cands.get ⟨j, hj⟩).Id
          = some .Completed
      ∧ (FindActiveAuctionsOlderThan coll (cutoffAt L now) false = .ok cands →
          closeExpiredAuctions L now coll false updateFails
            = ((closeEach updateFails cands 0 coll).1,
               .FindActiveAuctionsOlderThan (cutoffAt L now)
                 :: (closeEach updateFails cands 0 coll).2)) := by
  refine ⟨closeEach_updateCalls updateFails cands 0 coll, ?_, ?_⟩
  · exact closeEach_completed_of_ok updateFails cands 0 coll j hj (by simpa using hok) hin
  · intro hscan
    unfold closeExpiredAuctions
    unfold cutoffAt at hscan
    simp only [hscan]
    rfl

/-- C2 at a concrete input: three candidates, the update of the second one
fails, the third one is closed all the same. -/
theorem closeExpiredAuctions_partial_failure_isolation_witness :
    statusOf (closeEach (fun k => k == 1)
        [toMongo (sampleAuction "a1" 0), toMongo (sampleAuction "a2" 0),
          toMongo (sampleAuction "a3" 0)] 0
        [toMongo (sampleAuction "a1" 0), toMongo (sampleAuction "a2" 0),
          toMongo (sampleAuction "a3" 0)]).1 "a3" = some .Completed :=
  (closeExpiredAuctions_partial_failure_isolation (2 * Second) 2500000000
    [toMongo (sampleAuction "a1" 0), toMongo (sampleAuction "a2" 0),
      toMongo (sampleAuction "a3" 0)]
    (fun k => k == 1)
    [toMongo (sampleAuction "a1" 0), toMongo (sampleAuction "a2" 0),
      toMongo (sampleAuction "a3" 0)]
    2 (by decide) (by decide) (by decide)).2.1

/-- C3, the code at the inputs of the tests. With `AUCTION_INTERVAL=2s`, an
auction created when the repository is built reads Active right after creation
and still reads Active 4 s later, where `TestAuctionAutoClose` asserts
Completed; with `AUCTION_INTERVAL=3s`, each of three auctions still reads
Active 6 s later, where `TestAutomaticAuctionClosingBehavior` asserts
Completed: the ticker fires for the first time after 10 s. -/
theorem tests_read_active_at_twice_the_interval :
    (NewAuctionRepository [] (some env2s)).auctionInterval = 2 * Second
      ∧ statusOf (CreateAuction [] (sampleAuction "a1" 0) false).1 "a1" = some .Active
      ∧ ticksBy 0 (4 * Second) = 0
      ∧ statusOf (collectionAt (NewAuctionRepository [] (some env2s)).auctionInterval 0 0
          (CreateAuction [] (sampleAuction "a1" 0) false).1 (4 * Second)) "a1" = some .Active
      ∧ (NewAuctionRepository [] (some env3s)).auctionInterval = 3 * Second
      ∧ (∀ id ∈ ["a1", "a2", "a3"],
          statusOf (collectionAt (NewAuctionRepository [] (some env3s)).auctionInterval 0 0
            (CreateAuction (CreateAuction (CreateAuction [] (sampleAuction "a1" 0) false).1
              (sampleAuction "a2" 0) false).1 (sampleAuction "a3" 0) false).1
            (6 * Second)) id = some .Active) := by
  decide

/-- C4, the claim as stated fails: `AUCTION_INTERVAL=-5s` parses to an
interval of minus five seconds; for an auction created when the repository is
built, a read at creation time + interval + cadence = 5 s comes before the
first tick, which fires after 10 s, and observes Active. -/
theorem negative_interval_not_closed_at_interval_plus_cadence :
    (NewAuctionRepository [] (some envMinus5s)).auctionInterval = -5 * Second
      ∧ (0 : Int) + -5 * Second + checkCadence ≤ 5 * Second
      ∧ statusOf (collectionAt (-5 * Second) 0 0
          (CreateAuction [] (sampleAuction "a1" 0) false).1 (5 * Second)) "a1"
          = some .Active := by
  decide

/-- C4, amended. For an interval `0 ≤ L` (an int64), a loop started at or
before `t0` and not cancelled, ticks every 10 s from its start and no store
failure: every auction whose record is in the collection at `t0` with the
timestamp `CreateAuction` stores for creation time `t0` is read as Completed
at every time `t ≥ t0 + L + 10 s`. -/
theorem closed_by_interval_plus_one_cadence
    (L start t0 t : Int) (coll : Collection) (entities : List AuctionEntity)
    (hL0 : 0 ≤ L) (hL1 : L ≤ maxDuration) (hstart : start ≤ t0) (hU : UniqueIds coll)
    (hcreated : ∀ e ∈ entities, e.Timestamp = t0 ∧ toMongo e ∈ coll)
    (ht : t0 + L + checkCadence ≤ t) :
    ∀ e ∈ entities, statusOf (collectionAt L start t0 coll t) e.Id = some .Completed := by
  intro e he
  obtain ⟨hts, hmem⟩ := hcreated e he
  have hfind := find_of_mem coll hU (toMongo e) hmem
  rw [checkCadence_eq] at ht
  have hm0 : ticksBy start t0 < ticksBy start t := by
    rw [ticksBy_eq, ticksBy_eq]
    omega
  have hm1 : tickTime start (ticksBy start t) ≤ t := by
    rw [tickTime_eq, ticksBy_eq]
    omega
  have hm2 : t0 + L ≤ tickTime start (ticksBy start t) := by
    rw [tickTime_eq, ticksBy_eq]
    omega
  exact collectionAt_completed L start t0 t coll hU e.Id (unix t0)
    ⟨toMongo e, hfind, by rw [← hts]; rfl⟩ (ticksBy start t) hm0 hm1
    (cutoffAt_ge L _ t0 hL0 hL1 hm2)

/-- C4, the amended claim at the input of the second test with the cadence of
the code: three auctions created at time 0 with interval 3 s, read at 13 s. -/
theorem closed_by_interval_plus_one_cadence_witness :
    statusOf (collectionAt (3 * Second) 0 0
        [toMongo (sampleAuction "a1" 0), toMongo (sampleAuction "a2" 0),
          toMongo (sampleAuction "a3" 0)] (13 * Second)) "a3" = some .Completed :=
  closed_by_interval_plus_one_cadence (3 * Second) 0 0 (13 * Second)
    [toMongo (sampleAuction "a1" 0), toMongo (sampleAuction "a2" 0),
      toMongo (sampleAuction "a3" 0)]
    [sampleAuction "a1" 0, sampleAuction "a2" 0, sampleAuction "a3" 0]
    (by decide) (by decide) (by decide) (by decide) (by decide) (by decide)
    (sampleAuction "a3" 0) (by decide)

/-- C5, the claim as stated fails: interval 10 s, cadence 10 s, loop started
at 0.999999999 s, auction created at 1 s. The bound of the claim is
1 s + ⌈10/10⌉·10 s = 11 s; the first tick, at 10.999999999 s, has cutoff 0 s
and passes the auction over, so reads at 11 s and up to 20.999999998 s, almost
a whole further cadence period later, observe Active; the second tick, at
20.999999999 s, closes it. -/
theorem not_closed_by_ceil_bound :
    ceilDiv (10 * Second) checkCadence = 1
      ∧ statusOf (collectionAt (10 * Second) 999999999 (1 * Second)
          (CreateAuction [] (sampleAuction "a1" (1 * Second)) false).1
          (1 * Second + ceilDiv (10 * Second) checkCadence * checkCadence)) "a1"
          = some .Active
      ∧ statusOf (collectionAt (10 * Second) 999999999 (1 * Second)
          (CreateAuction [] (sampleAuction "a1" (1 * Second)) false).1
          (1 * Second + ceilDiv (10 * Second) checkCadence * checkCadence + 9999999998)) "a1"
          = some .Active
      ∧ statusOf (collectionAt (10 * Second) 999999999 (1 * Second)
          (CreateAuction [] (sampleAuction "a1" (1 * Second)) false).1
          (1 * Second + ceilDiv (10 * Second) checkCadence * checkCadence + 9999999999)) "a1"
          = some .Completed := by
  decide

/-- C5, amended. For an interval `0 ≤ L` (an int64), a loop started at or
before the creation time `t0`, ticks every `C` = 10 s from its start and no
store failure, the auction is Completed from the first tick that fires after
`t0` and at or after `t0 + L`: that tick fires no later than `t0 + L + C`, and
every read at or after it observes Completed. When the auction is created at
the instant the ticker starts and `0 < L`, that tick fires at
`t0 + ⌈L/C⌉·C`. -/
theorem closed_at_first_tick_after_interval
    (L start t0 : Int) (coll : Collection) (e : AuctionEntity)
    (hL0 : 0 ≤ L) (hL1 : L ≤ maxDuration) (hstart : start ≤ t0) (hU : UniqueIds coll)
    (hts : e.Timestamp = t0) (hmem : toMongo e ∈ coll) :
    ∃ m : Nat, ticksBy start t0 < m
      ∧ t0 + L ≤ tickTime start m
      ∧ tickTime start m ≤ t0 + L + checkCadence
      ∧ (∀ t : Int, tickTime start m ≤ t →
          statusOf (collectionAt L start t0 coll t) e.Id = some .Completed)
      ∧ (start = t0 → 0 < L →
          tickTime start m = t0 + ceilDiv L checkCadence * checkCadence) := by
  have hfind := find_of_mem coll hU (toMongo e) hmem
  refine ⟨max (ticksBy start t0 + 1) (ceilDiv (t0 + L - start) checkCadence).toNat,
    ?_, ?_, ?_, ?_, ?_⟩
  · omega
  · rw [tickTime_eq, checkCadence_eq]
    unfold ceilDiv
    omega
  · rw [tickTime_eq, ticksBy_eq, checkCadence_eq]
    unfold ceilDiv
    omega
  · intro t ht
    apply collectionAt_completed L start t0 t coll hU e.Id (unix t0)
      ⟨toMongo e, hfind, by rw [← hts]; rfl⟩ _ (by omega) ht
    apply cutoffAt_ge L _ t0 hL0 hL1
    rw [tickTime_eq, checkCadence_eq]
    unfold ceilDiv
    omega
  · intro hst hpos
    rw [tickTime_eq, ticksBy_eq, checkCadence_eq]
    unfold ceilDiv
    subst hst
    omega

/-- C5, the amended claim at the input of the counterexample: interval 10 s,
loop started at 0.999999999 s, auction created at 1 s. -/
theorem closed_at_first_tick_after_interval_witness :
    ∃ m : Nat, ticksBy 999999999 (1 * Second) < m
      ∧ 1 * Second + 10 * Second ≤ tickTime 999999999 m
      ∧ tickTime 999999999 m ≤ 1 * Second + 10 * Second + checkCadence
      ∧ (∀ t : Int, tickTime 999999999 m ≤ t →
          statusOf (collectionAt (10 * Second) 999999999 (1 * Second)
            [toMongo (sampleAuction "a1" (1 * Second))] t) "a1" = some .Completed)
      ∧ ((999999999 : Int) = 1 * Second → 0 < 10 * Second →
          tickTime 999999999 m
            = 1 * Second + ceilDiv (10 * Second) checkCadence * checkCadence) :=
  closed_at_first_tick_after_interval (10 * Second) 999999999 (1 * Second)
    [toMongo (sampleAuction "a1" (1 * Second))] (sampleAuction "a1" (1 * Second))
    (by decide) (by decide) (by decide) (by decide) rfl (by decide)

/-- C6. Scan failure aborts the tick. When `FindActiveAuctionsOlderThan` fails,
`closeExpiredAuctions` returns the collection as it was after one scan call and
one error line: no update call, no second scan. The loop that ran the tick is
still running with its context as before, and the next tick scans again. -/
theorem closeExpiredAuctions_scan_failure_aborts
    (ar : AuctionRepository) (now : Int) (updateFails : Nat → Bool)
    (hrun : ar.closer = .Running) :
    closeExpiredAuctions ar.auctionInterval now ar.Collection true updateFails
        = (ar.Collection,
           [.FindActiveAuctionsOlderThan (cutoffAt ar.auctionInterval now),
            .logError "Error finding expired auctions"])
      ∧ (step ar (.tick now true updateFails)).Collection = ar.Collection
      ∧ updateCalls (step ar (.tick now true updateFails)).events = updateCalls ar.events
      ∧ findCalls (step ar (.tick now true updateFails)).events
          = findCalls ar.events ++ [cutoffAt ar.auctionInterval now]
      ∧ (step ar (.tick now true updateFails)).closer = .Running
      ∧ (step ar (.tick now true updateFails)).ctxDone = ar.ctxDone
      ∧ ∀ (now2 : Int) (findFails2 : Bool) (updateFails2 : Nat → Bool),
          findCalls (step (step ar (.tick now true updateFails))
              (.tick now2 findFails2 updateFails2)).events
            = findCalls ar.events
                ++ [cutoffAt ar.auctionInterval now, cutoffAt ar.auctionInterval now2] := by
  have h1 := step_tick_running ar now true updateFails hrun
  rw [closeExpiredAuctions_scan_fails] at h1
  refine ⟨closeExpiredAuctions_scan_fails _ now _ updateFails, ?_, ?_, ?_, ?_, ?_, ?_⟩
  · rw [h1]
  · rw [h1]
    simp [updateCalls_append, updateCalls]
  · rw [h1]
    simp [findCalls_append, findCalls]
  · rw [h1]
    exact hrun
  · rw [h1]
  · intro now2 findFails2 updateFails2
    have h2 := step_tick_running (step ar (.tick now true updateFails)) now2 findFails2
      updateFails2 (by rw [h1]; exact hrun)
    rw [h2]
    simp only [findCalls_append, closeExpiredAuctions_findCalls]
    rw [h1]
    simp [findCalls_append, findCalls]

/-- C6 at a concrete input: a running repository holding one expired auction,
a tick whose scan fails. -/
theorem closeExpiredAuctions_scan_failure_aborts_witness :
    (NewAuctionRepository [toMongo (sampleAuction "a1" 0)] (some env2s)).closer = .Running
      ∧ (step (NewAuctionRepository [toMongo (sampleAuction "a1" 0)] (some env2s))
          (.tick 60000000000 true (fun _ => false))).Collection
        = [toMongo (sampleAuction "a1" 0)] :=
  ⟨by decide,
   (closeExpiredAuctions_scan_failure_aborts
      (NewAuctionRepository [toMongo (sampleAuction "a1" 0)] (some env2s))
      60000000000 (fun _ => false) (by decide)).2.1⟩

/-- C7, the claim as stated fails: the value `-2s` parses, and what
`getAuctionInterval` returns is minus two seconds, a negative duration; with
it a tick closes an auction at the very instant it is created. -/
theorem negative_interval_is_returned :
    getAuctionInterval (some envMinus2s) = -2 * Second
      ∧ getAuctionInterval (some envMinus2s) < 0
      ∧ statusOf (closeExpiredAuctions (getAuctionInterval (some envMinus2s)) (10 * Second)
          [toMongo (sampleAuction "a1" (10 * Second))] false (fun _ => false)).1 "a1"
          = some .Completed := by
  decide

/-- C7, amended. `getAuctionInterval` is total: the loop of `ParseDuration`
always returns, and the result is an int64. It is five minutes when the value
does not parse, as when the variable is missing or empty, and the parsed
duration when it parses (`2s` gives two seconds), whatever its sign: the
result is positive exactly when the value does not parse or parses to a
positive duration. -/
theorem getAuctionInterval_fallback (AUCTION_INTERVAL : Option (List Nat)) :
    (parseLoop (Getenv AUCTION_INTERVAL).length (Getenv AUCTION_INTERVAL) 0).isSome = true
      ∧ (minDuration ≤ getAuctionInterval AUCTION_INTERVAL
          ∧ getAuctionInterval AUCTION_INTERVAL ≤ maxDuration)
      ∧ (∀ err, ParseDuration (Getenv AUCTION_INTERVAL) = .error err →
          getAuctionInterval AUCTION_INTERVAL = Minute * 5)
      ∧ (∀ d, ParseDuration (Getenv AUCTION_INTERVAL) = .ok d →
          getAuctionInterval AUCTION_INTERVAL = d)
      ∧ (0 < getAuctionInterval AUCTION_INTERVAL ↔
          ∀ d, ParseDuration (Getenv AUCTION_INTERVAL) = .ok d → 0 < d)
      ∧ ParseDuration (Getenv none) = .error .invalidDuration
      ∧ getAuctionInterval none = Minute * 5
      ∧ getAuctionInterval (some []) = Minute * 5
      ∧ getAuctionInterval (some env2s) = 2 * Second := by
  have herr : ∀ err, ParseDuration (Getenv AUCTION_INTERVAL) = .error err →
      getAuctionInterval AUCTION_INTERVAL = Minute * 5 := by
    intro err h
    unfold getAuctionInterval
    simp only [h]
  have hok : ∀ d, ParseDuration (Getenv AUCTION_INTERVAL) = .ok d →
      getAuctionInterval AUCTION_INTERVAL = d := by
    intro d h
    unfold getAuctionInterval
    simp only [h]
  refine ⟨ParseDuration_loop_returns _, ?_, herr, hok, ?_, rfl, by decide, by decide,
    by decide⟩
  · cases h : ParseDuration (Getenv AUCTION_INTERVAL) with
    | error err =>
      rw [herr err h]
      decide
    | ok d =>
      rw [hok d h]
      exact ParseDuration_range _ d h
  · cases h : ParseDuration (Getenv AUCTION_INTERVAL) with
    | error err =>
      rw [herr err h]
      constructor
      · intro _ d hd
        simp at hd
      · intro _
        decide
    | ok d =>
      rw [hok d h]
      constructor
      · intro hpos d1 hd1
        simp only [Except.ok.injEq] at hd1
        rw [← hd1]
        exact hpos
      · intro hall
        exact hall d rfl

/-- C8. Status monotonicity. Along every sequence of operations
(`CreateAuction`, ticks with any backend failures, the loop stopping, `Close`)
from every repository state, an auction read as Completed at some point is read
as Completed at every later point. -/
theorem status_never_regresses (ar : AuctionRepository) (ops1 ops2 : List Op) (id : String)
    (h : statusOf (run ar ops1).Collection id = some .Completed) :
    statusOf (run ar (ops1 ++ ops2)).Collection id = some .Completed := by
  rw [run_append]
  exact run_completed ops2 (run ar ops1) id h

/-- C8 at a concrete input: an auction closed by a tick, then created again
under the same identifier, ticked again with failures, and the repository
closed. -/
theorem status_never_regresses_witness :
    statusOf (run (NewAuctionRepository [toMongo (sampleAuction "a1" 0)] (some env2s))
        ([.tick 60000000000 false (fun _ => false)]
          ++ [.CreateAuction (sampleAuction "a1" 70000000000) false,
              .tick 80000000000 true (fun _ => true), .Close, .done])).Collection "a1"
      = some .Completed :=
  status_never_regresses
    (NewAuctionRepository [toMongo (sampleAuction "a1" 0)] (some env2s))
    [.tick 60000000000 false (fun _ => false)]
    [.CreateAuction (sampleAuction "a1" 70000000000) false,
      .tick 80000000000 true (fun _ => true), .Close, .done]
    "a1" (by decide)

/-- C9. The loop of a repository moves only along NotStarted, Running,
Stopped. `NewAuctionRepository` returns the instance with exactly one loop
started and running, and the once guard starts no second one. No operation
starts a loop, and the only change of the loop's state an operation makes is
from Running to Stopped, by the `done` case of the `select`, which needs the
context cancelled; the context is cancelled by `Close` only. A tick leaves a
running loop running whatever the store returns. Once Stopped, along every
sequence of operations (further calls of `Close` included) the loop stays
Stopped and no tick runs. -/
theorem auctionCloser_state_machine :
    (∀ (database : Collection) (AUCTION_INTERVAL : Option (List Nat)),
        (NewAuctionRepository database AUCTION_INTERVAL).closer = .Running
          ∧ (NewAuctionRepository database AUCTION_INTERVAL).started = 1
          ∧ (NewAuctionRepository database AUCTION_INTERVAL).ctxDone = false
          ∧ closeOnceDo (NewAuctionRepository database AUCTION_INTERVAL)
              = NewAuctionRepository database AUCTION_INTERVAL)
      ∧ (∀ (ar : AuctionRepository) (op : Op),
          (step ar op).started = ar.started
            ∧ ((step ar op).closer = ar.closer
                ∨ (ar.closer = .Running ∧ ar.ctxDone = true
                    ∧ (step ar op).closer = .Stopped)))
      ∧ (∀ (ar : AuctionRepository) (op : Op),
          (step ar op).ctxDone = true →
            ar.ctxDone = true ∨ step ar op = Close ar)
      ∧ (∀ (ar : AuctionRepository) (now : Int) (findFails : Bool) (updateFails : Nat → Bool),
          ar.closer = .Running →
            (step ar (.tick now findFails updateFails)).closer = .Running)
      ∧ (∀ (ar : AuctionRepository), ar.ctxDone = false → (step ar .done) = ar)
      ∧ (∀ (ar : AuctionRepository) (now : Int) (findFails : Bool) (updateFails : Nat → Bool),
          ar.closer = .Stopped → step ar (.tick now findFails updateFails) = ar)
      ∧ (∀ (ar : AuctionRepository) (ops : List Op), ar.closer = .Stopped →
          (run ar ops).closer = .Stopped ∧ (run ar ops).events = ar.events
            ∧ (run ar ops).started = ar.started) := by
  refine ⟨?_, ?_, ?_, ?_, ?_, ?_, ?_⟩
  · intro database env
    exact ⟨rfl, rfl, rfl, rfl⟩
  · intro ar op
    cases op with
    | CreateAuction e backendFails => exact ⟨rfl, Or.inl rfl⟩
    | Close => exact ⟨rfl, Or.inl rfl⟩
    | tick now findFails updateFails =>
      simp only [step, auctionCloser]
      split
      · exact ⟨rfl, Or.inl rfl⟩
      · exact ⟨rfl, Or.inl rfl⟩
    | done =>
      simp only [step, auctionCloser]
      split
      · next h => exact ⟨rfl, Or.inr ⟨h.1, h.2, rfl⟩⟩
      · exact ⟨rfl, Or.inl rfl⟩
  · intro ar op h
    cases op with
    | CreateAuction e backendFails => exact Or.inl h
    | Close => exact Or.inr rfl
    | tick now findFails updateFails =>
      simp only [step, auctionCloser] at h
      split at h
      · exact Or.inl h
      · exact Or.inl h
    | done =>
      simp only [step, auctionCloser] at h
      split at h
      · exact Or.inl h
      · exact Or.inl h
  · intro ar now findFails updateFails h
    rw [step_tick_running ar now findFails updateFails h]
    exact h
  · intro ar h
    simp [step, auctionCloser, h]
  · intro ar now findFails updateFails h
    simp [step, auctionCloser, h]
  · intro ar ops h
    exact run_stopped ops ar h

/-- C10, the claim as stated fails: `AUCTION_INTERVAL=-9223372036854775808ns`
parses to the least int64 duration `L`, whose negation wraps back to `L`. At
time 0 the cutoff the tick passes to the store is the whole epoch seconds of
`0 + L`, not of `0 - L`, and an Active auction with timestamp 0, which is at
or before the whole epoch seconds of `0 - L`, is left Active. -/
theorem least_interval_cutoff_wraps :
    getAuctionInterval (some envMinDuration) = minDuration
      ∧ findCalls (closeExpiredAuctions minDuration 0 [toMongo (sampleAuction "a1" 0)]
          false (fun _ => false)).2 = [unix (0 + minDuration)]
      ∧ unix (0 + minDuration) ≠ unix (0 - minDuration)
      ∧ (toMongo (sampleAuction "a1" 0)).Timestamp ≤ unix (0 - minDuration)
      ∧ statusOf (closeExpiredAuctions minDuration 0 [toMongo (sampleAuction "a1" 0)]
          false (fun _ => false)).1 "a1" = some .Active := by
  decide

/-- C10, amended. For every collection (with the unique `_id`s of the store),
every time `now` and every interval `L` other than the least int64 duration, a
tick in which no store call fails makes one scan, with cutoff the whole epoch
seconds of `now - L`, and one update call to Completed for each record that
is Active with timestamp at or before the cutoff; afterwards the collection is
the one before with the status set to Completed on exactly those records,
record by record in the same order, every other record and every other field
being as before, whatever the order in which the scan lists the candidates;
and a second such tick at the same `now` changes nothing. -/
theorem closeExpiredAuctions_effect (L now : Int) (coll : Collection)
    (hL0 : minDuration < L) (hL1 : L ≤ maxDuration) (hU : UniqueIds coll) :
    findCalls (closeExpiredAuctions L now coll false (fun _ => false)).2 = [unix (now - L)]
      ∧ updateCalls (closeExpiredAuctions L now coll false (fun _ => false)).2
          = (coll.filter (fun a => a.Status = .Active ∧ a.Timestamp ≤ unix (now - L))).map
              (fun a => (a.Id, AuctionStatus.Completed))
      ∧ (closeExpiredAuctions L now coll false (fun _ => false)).1
          = coll.map (fun a =>
              if a.Status = .Active ∧ a.Timestamp ≤ unix (now - L)
              then { a with Status := .Completed } else a)
      ∧ ids (closeExpiredAuctions L now coll false (fun _ => false)).1 = ids coll
      ∧ (∀ cands : List AuctionEntityMongo,
          cands.Perm (coll.filter (fun a => a.Status = .Active ∧ a.Timestamp ≤ unix (now - L))) →
          (closeEach (fun _ => false) cands 0 coll).1
            = coll.map (fun a =>
                if a.Status = .Active ∧ a.Timestamp ≤ unix (now - L)
                then { a with Status := .Completed } else a))
      ∧ (closeExpiredAuctions L now
            (closeExpiredAuctions L now coll false (fun _ => false)).1 false
            (fun _ => false)).1
          = (closeExpiredAuctions L now coll false (fun _ => false)).1 := by
  have hcut : cutoffAt L now = unix (now - L) := by
    unfold cutoffAt timeAdd
    rw [negDuration_eq_neg L hL0 hL1]
    rfl
  have hmap : ∀ c : Collection, UniqueIds c →
      (closeExpiredAuctions L now c false (fun _ => false)).1
        = c.map (fun a =>
            if a.Status = .Active ∧ a.Timestamp ≤ unix (now - L)
            then { a with Status := .Completed } else a) := by
    intro c hc
    rw [closeExpiredAuctions_noFail L now c hc, hcut]
    unfold completeWhere expired
    apply List.map_congr_left
    intro a _
    by_cases hp : a.Status = .Active ∧ a.Timestamp ≤ unix (now - L) <;> simp [hp]
  refine ⟨?_, ?_, hmap coll hU, closeExpiredAuctions_ids L now coll false _, ?_, ?_⟩
  · rw [closeExpiredAuctions_findCalls, hcut]
  · unfold closeExpiredAuctions FindActiveAuctionsOlderThan
    simp only [Bool.false_eq_true, if_false, updateCalls]
    rw [closeEach_updateCalls]
    have : unix (timeAdd now (negDuration L)) = unix (now - L) := hcut
    rw [this]
  · intro cands hperm
    have hin : ∀ c ∈ cands, c.Id ∈ ids coll := by
      intro c hc
      exact List.mem_map_of_mem _ (List.mem_filter.1 ((hperm.mem_iff).1 hc)).1
    rw [closeEach_noFail cands 0 coll hin hU]
    unfold completeWhere
    apply List.map_congr_left
    intro a ha
    have hiff : a.Id ∈ ids cands ↔
        a.Id ∈ ids (coll.filter
          (fun a => decide (a.Status = .Active ∧ a.Timestamp ≤ unix (now - L)))) := by
      unfold ids
      exact (hperm.map _).mem_iff
    have hfil := mem_ids_filter coll hU
      (fun a => decide (a.Status = .Active ∧ a.Timestamp ≤ unix (now - L))) a ha
    by_cases hp : a.Status = .Active ∧ a.Timestamp ≤ unix (now - L)
    · have h1 : a.Id ∈ ids cands := hiff.2 (hfil.2 (by simpa using hp))
      simp [hp, h1]
    · have h1 : ¬ a.Id ∈ ids cands := by
        intro h2
        exact hp (by simpa using hfil.1 (hiff.1 h2))
      simp [hp, h1]
  · rw [hmap _ (tick_uniqueIds L now coll false _ hU), hmap coll hU, List.map_map]
    apply List.map_congr_left
    intro a _
    by_cases hp : a.Status = .Active ∧ a.Timestamp ≤ unix (now - L)
    · simp [hp]
    · simp [hp]

/-- C10, the amended claim at a concrete input: interval 2 s, a tick at 2.5 s
on an auction created at 0.9 s and one created at 5.9 s. -/
theorem closeExpiredAuctions_effect_witness :
    (closeExpiredAuctions (2 * Second) 2500000000
        [toMongo (sampleAuction "a1" 900000000), toMongo (sampleAuction "a2" 5900000000)]
        false (fun _ => false)).1
      = [toMongo (sampleAuction "a1" 900000000),
          toMongo (sampleAuction "a2" 5900000000)].map (fun a =>
            if a.Status = .Active ∧ a.Timestamp ≤ unix (2500000000 - 2 * Second)
            then { a with Status := .Completed } else a) :=
  (closeExpiredAuctions_effect (2 * Second) 2500000000
    [toMongo (sampleAuction "a1" 900000000), toMongo (sampleAuction "a2" 5900000000)]
    (by decide) (by decide) (by decide)).2.2.1

end Auction
